import Mathlib

/-!
Verification of the anyrl reward-aggregation and PPO training core.

The Go source is shallowly embedded: vectors (anyvec.Vector) become
List ℚ, numeric scalars become ℚ, anyseq.Batch becomes a structure of a
presence mask and a packed value list, and a lazyseq.Tape becomes a list
of batches.  Differentiable results (anydiff.Res) are modelled by their
output values; pooling combinators (anydiff.Pool, lazyseq.PoolToVec,
lazyseq.Lazify) are identities on values.
-/

namespace Anyrl

/-- One time step across parallel lanes (episodes), modelling
anyseq.Batch: a presence mask and a packed value list holding one entry
per present lane. -/
structure Batch where
  present : List Bool
  packed : List ℚ
deriving DecidableEq

/-- Number of present lanes in a mask. -/
def countTrues : List Bool → Nat
  | [] => 0
  | true :: ps => countTrues ps + 1
  | false :: ps => countTrues ps

/-- Full per-lane view of a packed list: absent lanes read as 0. -/
def unpack : List Bool → List ℚ → List ℚ
  | [], _ => []
  | false :: ps, xs => 0 :: unpack ps xs
  | true :: ps, [] => 0 :: unpack ps []
  | true :: ps, x :: xs => x :: unpack ps xs

/-- Restrict a full per-lane value list to the lanes of a mask. -/
def packMask : List Bool → List ℚ → List ℚ
  | [], _ => []
  | _ :: _, [] => []
  | true :: ps, x :: xs => x :: packMask ps xs
  | false :: ps, _ :: xs => packMask ps xs

/-- Models anyseq.Batch.Expand (from the external anyseq dependency):
re-pack a batch's packed values under a target mask, filling 0 for
target lanes on which the batch is absent. -/
def expandPacked (target src : List Bool) (xs : List ℚ) : List ℚ :=
  packMask target (unpack src xs)

/-- One iteration of the accumulation loop in rewardSum
(rewards.go lines 48-57): sum.Packed.Add(batch.Expand(sum.Present).Packed). -/
def rewardSumStep (sum batch : Batch) : Batch :=
  { present := sum.present
    packed := List.zipWith (· + ·) sum.packed
      (expandPacked sum.present batch.present batch.packed) }

/-- rewardSum (rewards.go lines 46-59): folds the tape, seeding the
accumulator with a copy of the first batch; nil for an empty tape. -/
def rewardSum : List Batch → Option Batch
  | [] => none
  | b :: bs =>
      some (bs.foldl rewardSumStep { present := b.present, packed := b.packed })

/-- TotalRewards (rewards.go lines 13-19): the packed per-lane sums, or
an empty vector when rewardSum returns nil. -/
def TotalRewards (rewards : List Batch) : List ℚ :=
  match rewardSum rewards with
  | none => []
  | some sum => sum.packed

/-- The divisor appearing in MeanReward's scaling step
(rewards.go line 25): the length of the totals vector. -/
def meanRewardDivisor (rewards : List Batch) : ℚ :=
  ((TotalRewards rewards).length : ℚ)

/-- MeanReward (rewards.go lines 23-27): unconditionally scales the
totals vector by 1/laneCount and sums the result.  There is no guard on
the lane count. -/
def MeanReward (rewards : List Batch) : ℚ :=
  ((TotalRewards rewards).map (· * (1 / meanRewardDivisor rewards))).sum

/-- The loop of DiscountedRewards, carrying the running step index i
(rewards.go lines 33-40). -/
def discountLoop (factor : ℚ) : Nat → List Batch → List Batch
  | _, [] => []
  | i, b :: bs =>
      { present := b.present, packed := b.packed.map (· * factor ^ i) } ::
        discountLoop factor (i + 1) bs

/-- DiscountedRewards (rewards.go lines 30-44): step i of the output is
the input batch scaled by factor^i. -/
def DiscountedRewards (rewards : List Batch) (factor : ℚ) : List Batch :=
  discountLoop factor 0 rewards

/-- Specification-side per-lane totals over all steps of a tape with N
lanes, an absent lane contributing 0 at that step. -/
def laneTotals (N : Nat) (tape : List Batch) : List ℚ :=
  tape.foldl (fun acc b => List.zipWith (· + ·) acc (unpack b.present b.packed))
    (List.replicate N 0)

/-- Pointwise mask order: every lane present in q is present in p. -/
def maskLe : List Bool → List Bool → Bool
  | [], [] => true
  | q :: qs, p :: ps => (!q || p) && maskLe qs ps
  | _, _ => false

/-- Per-lane presence is monotonically non-increasing along a tape:
once a lane is absent it stays absent. -/
def monotonePresence (tape : List Batch) : Prop :=
  List.Chain' (fun a b => maskLe b.present a.present = true) tape

/-- DefaultPPOEpsilon (ppo.go line 12): the 0.2 clipping default. -/
def DefaultPPOEpsilon : ℚ := 1 / 5

/-- Models anydiff.ClipRange (external anydiff dependency): clamp every
component into the interval from lo to hi. -/
def clipRange (lo hi : ℚ) (xs : List ℚ) : List ℚ :=
  xs.map fun x => min (max x lo) hi

/-- PPOObjective (ppo.go lines 25-39): elementwise minimum of the
clipped-ratio product and the raw-ratio product with the advantages.
anydiff.Pool is an identity on values, anydiff.Mul and anydiff.ElemMin
are the elementwise product and minimum. -/
def PPOObjective (eps : ℚ) (rats advs : List ℚ) : List ℚ :=
  List.zipWith min
    (List.zipWith (· * ·) (clipRange (1 - eps) (1 + eps) rats) advs)
    (List.zipWith (· * ·) rats advs)

/-- PPO trainer configuration (ppo.go lines 54-103).  The Base, Actor
and Critic collaborators are pure functions on an abstract sequence
value type σ; Base is optional, nil meaning the identity mapping.  The
ActionSpace and Regularizer collaborators only occur inside the
abstracted body of Run and so are not carried here. -/
structure PPO (σ : Type) where
  Params : List Nat
  Base : Option (σ → σ)
  Actor : σ → σ
  Critic : σ → σ
  CriticWeight : ℚ
  Discount : ℚ
  Lambda : ℚ
  Epsilon : ℚ
  PoolBase : Bool

/-- applyBase (ppo.go lines 219-225): identity when Base is nil. -/
def PPO.applyBase {σ : Type} (p : PPO σ) (x : σ) : σ :=
  match p.Base with
  | none => x
  | some f => f x

/-- runActorCritic (ppo.go lines 199-213).  With PoolBase, Base is
evaluated once and its pooled output fed to both Actor and Critic
(lazyseq.PoolToVec and lazyseq.Lazify are identities on values);
otherwise Base is recomputed separately for the Actor path and the
Critic path. -/
def PPO.runActorCritic {σ α : Type} (p : PPO σ) (r : σ) (f : σ → σ → α) : α :=
  if p.PoolBase then
    let baseOut := p.applyBase r
    f (p.Actor baseOut) (p.Critic baseOut)
  else
    f (p.Actor (p.applyBase r)) (p.Critic (p.applyBase r))

/-- clippedObjective (ppo.go lines 227-234): substitutes
DefaultPPOEpsilon when the configured Epsilon is 0. -/
def PPO.clippedObjective {σ : Type} (p : PPO σ) (ratios advantages : List ℚ) :
    List ℚ :=
  PPOObjective (if p.Epsilon = 0 then DefaultPPOEpsilon else p.Epsilon)
    ratios advantages

/-- Critic coefficient computed inside Run (ppo.go lines 154-157):
starts at -1 and is multiplied by CriticWeight only when that weight is
nonzero. -/
def criticCoeff (w : ℚ) : ℚ :=
  if w ≠ 0 then -1 * w else -1

/-- Per-step critic term from Run (ppo.go lines 158-161):
Scale(Square(Sub(critic, targets)), criticCoeff). -/
def criticTerm (w : ℚ) (critic targets : List ℚ) : List ℚ :=
  ((List.zipWith (· - ·) critic targets).map fun x => x ^ 2).map
    (· * criticCoeff w)

/-- PPOTerms (ppo.go lines 46-50): the three scalar objective means. -/
structure PPOTerms where
  MeanAdvantage : ℚ
  MeanCritic : ℚ
  MeanRegularization : ℚ
deriving DecidableEq

/-- Models anydiff.NewGrad (external anydiff dependency): one zero
accumulator per listed parameter. -/
def PPO.newGrad {σ : Type} (p : PPO σ) : List (Nat × ℚ) :=
  p.Params.map fun v => (v, 0)

/-- Run (ppo.go lines 131-191).  The whole gradient computation of
lines 136-190 — target judging, the actor/critic forward passes, the
objective and its backward propagation — is abstracted as the body
argument, which reports the gradient and terms it would produce
together with the number of calls it makes to the Base, Actor, Critic,
ActionSpace and Regularizer collaborators.  The empty-Params short
circuit of lines 132-135 is modelled exactly: it returns before the
body runs, so no collaborator is called. -/
def PPO.Run {σ : Type} (p : PPO σ)
    (body : Unit → List (Nat × ℚ) × PPOTerms × Nat) :
    List (Nat × ℚ) × Option PPOTerms × Nat :=
  let grad := p.newGrad
  if grad.length = 0 then (grad, none, 0)
  else
    let res := body ()
    (res.1, some res.2.1, res.2.2)

/-- Modelled from the spec: the GAEJudger used by PPO.Advantage
(ppo.go lines 111-120) lives in a repository file that is not under
src/.  One-step TD residuals for a single lane, following section 4.2:
the residual at step t is reward t plus γ times the value at step t+1
minus the value at step t, the value one past the final step being 0. -/
def gaeDeltas (γ : ℚ) : List ℚ → List ℚ → List ℚ
  | r :: rs, v :: vs => (r + γ * vs.headD 0 - v) :: gaeDeltas γ rs vs
  | _, _ => []

/-- Modelled from the spec: GAE advantages from the TD residuals by the
exponentially-weighted backward recursion, the advantage at step t
being the residual at t plus γλ times the advantage at t+1. -/
def gaeAdv (γ lam : ℚ) : List ℚ → List ℚ
  | [] => []
  | d :: ds => (d + γ * lam * (gaeAdv γ lam ds).headD 0) :: gaeAdv γ lam ds

/-- Discounted return of a reward list: r 0 + γ r 1 + γ² r 2 + ... -/
def discReturn (γ : ℚ) : List ℚ → ℚ
  | [] => 0
  | r :: rs => r + γ * discReturn γ rs

/-- Concrete three-step, two-lane tape: lane 0 sees rewards 1, 2, 3 and
lane 1 sees rewards 1, 1 before going absent. -/
def sampleB0 : Batch := { present := [true, true], packed := [1, 1] }

/-- Second step of the sample tape. -/
def sampleB1 : Batch := { present := [true, true], packed := [2, 1] }

/-- Third step of the sample tape; lane 1 is absent. -/
def sampleB2 : Batch := { present := [true, false], packed := [3] }

/-- A concrete PPO configuration with empty Params and unset Epsilon. -/
def samplePPOZero : PPO Unit :=
  { Params := [], Base := none, Actor := id, Critic := id, CriticWeight := 0,
    Discount := 0, Lambda := 0, Epsilon := 0, PoolBase := false }

/-- A concrete Run body that would report a nonempty gradient, nonzero
terms and seven collaborator calls if it were ever invoked. -/
def sampleRunBody : Unit → List (Nat × ℚ) × PPOTerms × Nat :=
  fun _ => ([(0, 1)], ⟨1, 2, 3⟩, 7)

/-! ## Helper lemmas -/

theorem getD_zipWith (f : ℚ → ℚ → ℚ) (l1 l2 : List ℚ) (i : Nat)
    (h1 : i < l1.length) (h2 : i < l2.length) :
    (List.zipWith f l1 l2).getD i 0 = f (l1.getD i 0) (l2.getD i 0) := by
  induction l1 generalizing l2 i with
  | nil => simp at h1
  | cons a l1 ih =>
      cases l2 with
      | nil => simp at h2
      | cons b l2 =>
          cases i with
          | zero => simp
          | succ i =>
              simp only [List.zipWith_cons_cons, List.getD_cons_succ]
              exact ih l2 i (by simpa using h1) (by simpa using h2)

theorem getD_map (f : ℚ → ℚ) (l : List ℚ) (i : Nat) (h : i < l.length) :
    (l.map f).getD i 0 = f (l.getD i 0) := by
  induction l generalizing i with
  | nil => simp at h
  | cons a l ih =>
      cases i with
      | zero => simp
      | succ i =>
          simp only [List.map_cons, List.getD_cons_succ]
          exact ih i (by simpa using h)

theorem getD_eq_drop_headD (l : List ℚ) (t : Nat) :
    l.getD t 0 = (l.drop t).headD 0 := by
  induction l generalizing t with
  | nil => simp
  | cons a l ih =>
      cases t with
      | zero => simp
      | succ t => simp [ih t]

theorem getD_drop (l : List ℚ) (t k : Nat) :
    (l.drop t).getD k 0 = l.getD (t + k) 0 := by
  rw [getD_eq_drop_headD, getD_eq_drop_headD, List.drop_drop, Nat.add_comm]

theorem gaeAdv_zero_lam (γ : ℚ) (ds : List ℚ) : gaeAdv γ 0 ds = ds := by
  induction ds with
  | nil => rfl
  | cons d ds ih => simp [gaeAdv, ih]

theorem gaeAdv_drop (γ lam : ℚ) (ds : List ℚ) (t : Nat) :
    (gaeAdv γ lam ds).drop t = gaeAdv γ lam (ds.drop t) := by
  induction ds generalizing t with
  | nil => simp [gaeAdv]
  | cons d ds ih =>
      cases t with
      | zero => rfl
      | succ t => simp [gaeAdv, ih t]

theorem gaeDeltas_drop (γ : ℚ) (rs vs : List ℚ) (h : rs.length = vs.length)
    (t : Nat) :
    (gaeDeltas γ rs vs).drop t = gaeDeltas γ (rs.drop t) (vs.drop t) := by
  induction rs generalizing vs t with
  | nil =>
      cases vs with
      | nil => simp [gaeDeltas]
      | cons v vs => simp at h
  | cons r rs ih =>
      cases vs with
      | nil => simp at h
      | cons v vs =>
          cases t with
          | zero => rfl
          | succ t =>
              simp only [List.length_cons, Nat.add_right_cancel_iff] at h
              simpa [gaeDeltas] using ih vs h t

theorem gaeAdv_headD_sum (γ lam : ℚ) (ds : List ℚ) :
    (gaeAdv γ lam ds).headD 0
      = ∑ k in Finset.range ds.length, (γ * lam) ^ k * ds.getD k 0 := by
  induction ds with
  | nil => simp [gaeAdv]
  | cons d ds ih =>
      show d + γ * lam * (gaeAdv γ lam ds).headD 0 = _
      rw [List.length_cons, Finset.sum_range_succ']
      simp only [List.getD_cons_succ, List.getD_cons_zero, pow_zero, one_mul]
      rw [ih, Finset.mul_sum, add_comm]
      congr 1
      refine Finset.sum_congr rfl fun k hk => ?_
      ring

theorem gae_one_head (γ : ℚ) (rs vs : List ℚ) (h : rs.length = vs.length) :
    (gaeAdv γ 1 (gaeDeltas γ rs vs)).headD 0
      = discReturn γ rs - vs.headD 0 := by
  induction rs generalizing vs with
  | nil =>
      cases vs with
      | nil => simp [gaeDeltas, gaeAdv, discReturn]
      | cons v vs => simp at h
  | cons r rs ih =>
      cases vs with
      | nil => simp at h
      | cons v vs =>
          simp only [List.length_cons, Nat.add_right_cancel_iff] at h
          show (r + γ * vs.headD 0 - v) +
              γ * 1 * (gaeAdv γ 1 (gaeDeltas γ rs vs)).headD 0 = _
          rw [ih vs h]
          simp only [discReturn, List.headD_cons]
          ring

theorem discountLoop_get (factor : ℚ) (bs : List Batch) (j i : Nat) :
    (discountLoop factor j bs).get? i = (bs.get? i).map fun b =>
      { present := b.present
        packed := b.packed.map (· * factor ^ (j + i)) } := by
  induction bs generalizing j i with
  | nil => simp [discountLoop]
  | cons b bs ih =>
      cases i with
      | zero => simp [discountLoop]
      | succ i =>
          have hj : j + 1 + i = j + (i + 1) := by omega
          simp only [discountLoop, List.get?_cons_succ]
          rw [ih (j + 1) i, hj]

theorem discountLoop_length (factor : ℚ) (bs : List Batch) (j : Nat) :
    (discountLoop factor j bs).length = bs.length := by
  induction bs generalizing j with
  | nil => rfl
  | cons b bs ih => simp [discountLoop, ih]

theorem unpack_length (p : List Bool) (xs : List ℚ) :
    (unpack p xs).length = p.length := by
  induction p generalizing xs with
  | nil => rfl
  | cons b ps ih => cases b <;> cases xs <;> simp [unpack, ih]

theorem packMask_unpack (p : List Bool) (xs : List ℚ)
    (h : xs.length = countTrues p) : packMask p (unpack p xs) = xs := by
  induction p generalizing xs with
  | nil =>
      have hx : xs = [] := List.length_eq_zero.mp (by simpa [countTrues] using h)
      rw [hx]
      rfl
  | cons b ps ih =>
      cases b with
      | false =>
          show packMask ps (unpack ps xs) = xs
          exact ih xs (by simpa [countTrues] using h)
      | true =>
          cases xs with
          | nil => simp [countTrues] at h
          | cons x xs =>
              show x :: packMask ps (unpack ps xs) = x :: xs
              rw [ih xs (by simpa [countTrues] using h)]

theorem packMask_zipWith_add (p : List Bool) (A B : List ℚ)
    (hA : A.length = p.length) (hB : B.length = p.length) :
    List.zipWith (· + ·) (packMask p A) (packMask p B)
      = packMask p (List.zipWith (· + ·) A B) := by
  induction p generalizing A B with
  | nil => simp [packMask]
  | cons b ps ih =>
      cases A with
      | nil => simp at hA
      | cons a A =>
          cases B with
          | nil => simp at hB
          | cons c B =>
              cases b <;>
                simp [packMask, ih A B (by simpa using hA) (by simpa using hB)]

theorem zipWith_replicate_add (X : List ℚ) (N : Nat) (h : X.length = N) :
    List.zipWith (· + ·) (List.replicate N 0) X = X := by
  induction X generalizing N with
  | nil => simp
  | cons x X ih =>
      cases N with
      | zero => simp at h
      | succ N =>
          simp only [List.replicate_succ, List.zipWith_cons_cons, zero_add,
            List.cons.injEq, true_and]
          exact ih N (by simpa using h)

theorem rewardSum_fold (bs : List Batch) (p : List Bool) (A : List ℚ)
    (hA : A.length = p.length)
    (hb : ∀ b ∈ bs, b.present.length = p.length) :
    bs.foldl rewardSumStep { present := p, packed := packMask p A }
      = { present := p,
          packed := packMask p (bs.foldl
            (fun acc b => List.zipWith (· + ·) acc (unpack b.present b.packed))
            A) } := by
  induction bs generalizing A with
  | nil => rfl
  | cons b bs ih =>
      have hblen : b.present.length = p.length := hb b (by simp)
      have hstep : rewardSumStep { present := p, packed := packMask p A } b
          = { present := p,
              packed := packMask p
                (List.zipWith (· + ·) A (unpack b.present b.packed)) } := by
        simp only [rewardSumStep, expandPacked]
        rw [packMask_zipWith_add p A (unpack b.present b.packed) hA
          (by rw [unpack_length, hblen])]
      rw [List.foldl_cons, hstep, List.foldl_cons,
        ih (List.zipWith (· + ·) A (unpack b.present b.packed))
          (by rw [List.length_zipWith, unpack_length, hblen, hA, min_self])
          (fun x hx => hb x (by simp [hx]))]

theorem sum_map_mul (l : List ℚ) (c : ℚ) : (l.map (· * c)).sum = l.sum * c := by
  induction l with
  | nil => simp
  | cons x l ih => simp [ih]; ring

/-! ## Claim theorems -/

/-- C1: for every epsilon greater than 0 and equal-length lists of
nonnegative ratios and advantages, PPOObjective has one component per
action, each component equal to the minimum of the clipped-ratio
product and the raw-ratio product with the advantage, and any component
whose ratio equals 1 equals the advantage exactly. -/
theorem PPOObjective_formula (eps : ℚ) (rats advs : List ℚ)
    (heps : 0 < eps) (hlen : rats.length = advs.length)
    (hnn : ∀ r ∈ rats, 0 ≤ r) :
    (PPOObjective eps rats advs).length = rats.length
    ∧ (∀ i, i < rats.length →
        (PPOObjective eps rats advs).getD i 0 =
          min (min (max (rats.getD i 0) (1 - eps)) (1 + eps) * advs.getD i 0)
              (rats.getD i 0 * advs.getD i 0))
    ∧ (∀ i, i < rats.length → rats.getD i 0 = 1 →
        (PPOObjective eps rats advs).getD i 0 = advs.getD i 0) := by
  have hclip : ∀ i, i < rats.length →
      (PPOObjective eps rats advs).getD i 0 =
        min (min (max (rats.getD i 0) (1 - eps)) (1 + eps) * advs.getD i 0)
            (rats.getD i 0 * advs.getD i 0) := by
    intro i hi
    unfold PPOObjective clipRange
    rw [getD_zipWith, getD_zipWith, getD_zipWith, getD_map]
    all_goals simp [hlen ▸ hi, hi]
  refine ⟨?_, hclip, ?_⟩
  · simp [PPOObjective, clipRange, hlen]
  · intro i hi hr
    rw [hclip i hi, hr]
    have h1 : max (1 : ℚ) (1 - eps) = 1 := max_eq_left (by linarith)
    have h2 : min (1 : ℚ) (1 + eps) = 1 := min_eq_left (by linarith)
    rw [h1, h2, one_mul, min_self]

/-- C1 witness: with epsilon 1/10, ratio 1 and advantage 5 the
objective component is exactly the advantage. -/
theorem PPOObjective_formula_witness :
    (PPOObjective (1 / 10) [1] [5]).getD 0 0 = 5 := by
  have h := PPOObjective_formula (1 / 10) [1] [5] (by norm_num) rfl
    (by norm_num)
  simpa using h.2.2 0 (by norm_num) (by norm_num)

/-- C2: for a single-lane episode of rewards and values of equal
length, the GAE advantages with mixing coefficient 0 are exactly the
one-step TD residuals, with coefficient 1 they are the discounted
return minus the value baseline at every step, and in general the
advantage at step t is the sum over k of (γλ)^k times the residual at
step t+k. -/
theorem gae_lambda_cases (γ lam : ℚ) (rs vs : List ℚ)
    (h : rs.length = vs.length) :
    gaeAdv γ 0 (gaeDeltas γ rs vs) = gaeDeltas γ rs vs
    ∧ (∀ t, (gaeAdv γ 1 (gaeDeltas γ rs vs)).getD t 0
        = discReturn γ (rs.drop t) - vs.getD t 0)
    ∧ (∀ t, (gaeAdv γ lam (gaeDeltas γ rs vs)).getD t 0 =
        ∑ k in Finset.range ((gaeDeltas γ rs vs).length - t),
          (γ * lam) ^ k * (gaeDeltas γ rs vs).getD (t + k) 0) := by
  refine ⟨gaeAdv_zero_lam γ _, fun t => ?_, fun t => ?_⟩
  · rw [getD_eq_drop_headD, gaeAdv_drop, gaeDeltas_drop γ rs vs h t,
      gae_one_head γ _ _ (by simp [h]), getD_eq_drop_headD]
  · rw [getD_eq_drop_headD, gaeAdv_drop, gaeAdv_headD_sum, List.length_drop]
    refine Finset.sum_congr rfl fun k hk => ?_
    rw [getD_drop]

/-- C2 witness: with γ = 1/2 on rewards [1, 2] and values [3, 4], the
λ = 0 advantages are the TD residuals and the first λ = 1 advantage is
the discounted return 1 + (1/2)·2 = 2 minus the baseline 3. -/
theorem gae_lambda_cases_witness :
    gaeAdv (1 / 2) 0 (gaeDeltas (1 / 2) [1, 2] [3, 4])
      = gaeDeltas (1 / 2) [1, 2] [3, 4]
    ∧ (gaeAdv (1 / 2) 1 (gaeDeltas (1 / 2) [1, 2] [3, 4])).getD 0 0
      = discReturn (1 / 2) [1, 2] - 3 := by
  have h := gae_lambda_cases (1 / 2) 1 [1, 2] [3, 4] rfl
  exact ⟨h.1, by simpa using h.2.1 0⟩

/-- C3: for every tape and factor with 0 < factor ≤ 1,
DiscountedRewards keeps the number of steps and replaces step i by the
original batch with each value multiplied by factor^i — a per-step
scalar scaling, not a cumulative discounted-return transform. -/
theorem DiscountedRewards_perStepScaling (rewards : List Batch) (factor : ℚ)
    (hfac : 0 < factor ∧ factor ≤ 1) :
    (DiscountedRewards rewards factor).length = rewards.length
    ∧ ∀ i, (DiscountedRewards rewards factor).get? i =
        (rewards.get? i).map fun b =>
          { present := b.present, packed := b.packed.map (· * factor ^ i) } := by
  refine ⟨discountLoop_length factor rewards 0, fun i => ?_⟩
  rw [DiscountedRewards, discountLoop_get factor rewards 0 i]
  simp

/-- C3 witness: with factor 1/2 the three-step sample tape keeps three
steps and its step 2 is scaled by 1/4, giving packed value 3/4 — not
the cumulative-return transform. -/
theorem DiscountedRewards_perStepScaling_witness :
    (DiscountedRewards [sampleB0, sampleB1, sampleB2] (1 / 2)).length = 3
    ∧ (DiscountedRewards [sampleB0, sampleB1, sampleB2] (1 / 2)).get? 2
      = some { present := [true, false], packed := [3 / 4] } := by
  have h := DiscountedRewards_perStepScaling [sampleB0, sampleB1, sampleB2]
    (1 / 2) (by norm_num)
  refine ⟨h.1, ?_⟩
  rw [h.2 2]
  norm_num [sampleB2]

/-- C4: over a tape whose per-lane presence is monotonically
non-increasing, TotalRewards returns one sum per lane present at step
0, each the sum of that lane's rewards with absent steps contributing
0; on the zero-step tape it returns the empty vector. -/
theorem TotalRewards_perLaneSums (b0 : Batch) (rest : List Batch) (N : Nat)
    (hN : ∀ b ∈ b0 :: rest, b.present.length = N)
    (hwf : ∀ b ∈ b0 :: rest, b.packed.length = countTrues b.present)
    (hmono : monotonePresence (b0 :: rest)) :
    TotalRewards (b0 :: rest)
      = packMask b0.present (laneTotals N (b0 :: rest))
    ∧ TotalRewards [] = [] := by
  refine ⟨?_, rfl⟩
  have hN0 : b0.present.length = N := hN b0 (by simp)
  have hinit : ({ present := b0.present, packed := b0.packed } : Batch)
      = { present := b0.present,
          packed := packMask b0.present (unpack b0.present b0.packed) } := by
    rw [packMask_unpack b0.present b0.packed (hwf b0 (by simp))]
  show (rest.foldl rewardSumStep
    { present := b0.present, packed := b0.packed }).packed = _
  rw [hinit, rewardSum_fold rest b0.present (unpack b0.present b0.packed)
    (unpack_length b0.present b0.packed)
    (fun b hb => by rw [hN b (by simp [hb]), hN0])]
  simp only [laneTotals, List.foldl_cons]
  rw [zipWith_replicate_add (unpack b0.present b0.packed) N
    (by rw [unpack_length, hN0])]

/-- C4 witness: the sample tape with lanes [[1,2,3],[1,1]] satisfies
the presence invariants, and its per-lane totals come out through the
claimed formula; the zero-step tape yields the empty vector. -/
theorem TotalRewards_perLaneSums_witness :
    TotalRewards [sampleB0, sampleB1, sampleB2]
      = packMask [true, true] (laneTotals 2 [sampleB0, sampleB1, sampleB2])
    ∧ TotalRewards [] = [] :=
  TotalRewards_perLaneSums sampleB0 [sampleB1, sampleB2] 2
    (by decide) (by decide)
    (by
      unfold monotonePresence
      exact List.chain'_cons.mpr ⟨by decide,
        List.chain'_cons.mpr ⟨by decide, List.chain'_singleton _⟩⟩)

/-- C5 counterexample: MeanReward has no zero-lane guard.  On the
zero-step tape the scaling factor 1/laneCount is evaluated with lane
count 0 — a silent division by zero (in the Go source, +Inf) — and the
function still returns the silent value 0, the sum of the empty
vector, rather than the edge condition being explicitly handled. -/
theorem MeanReward_zero_step_divides_by_zero :
    meanRewardDivisor [] = 0 ∧ MeanReward [] = 0 := by
  constructor
  · rfl
  · rfl

/-- C5 amended: MeanReward equals the sum of TotalRewards divided by
the lane count whenever there is at least one lane; with zero lanes the
division is performed anyway with divisor zero and the result is the
empty sum 0 (both sides of this equation are 0 in that case), with no
explicit edge-condition handling in the implementation. -/
theorem MeanReward_sum_div_laneCount (rewards : List Batch) :
    MeanReward rewards
      = (TotalRewards rewards).sum / ((TotalRewards rewards).length : ℚ) := by
  rw [MeanReward, sum_map_mul, meanRewardDivisor, mul_one_div]

/-- C6: Run with an empty Params list returns the empty gradient and an
absent PPOTerms immediately, with zero collaborator calls, whatever
gradient computation the body would have performed. -/
theorem Run_empty_params_noop {σ : Type} (p : PPO σ)
    (body : Unit → List (Nat × ℚ) × PPOTerms × Nat)
    (h : p.Params = []) :
    p.Run body = ([], none, 0) := by
  simp [PPO.Run, PPO.newGrad, h]

/-- C6 witness: the empty-Params sample configuration short-circuits
even though its body would report a nonempty gradient and seven
collaborator calls. -/
theorem Run_empty_params_noop_witness :
    samplePPOZero.Run sampleRunBody = ([], none, 0) :=
  Run_empty_params_noop samplePPOZero sampleRunBody rfl

/-- C7: clippedObjective uses DefaultPPOEpsilon = 1/5 = 0.2 when the
configured Epsilon is 0, and uses the configured value as given when it
is nonzero. -/
theorem clippedObjective_epsilon_default {σ : Type} (p : PPO σ)
    (rats advs : List ℚ) :
    (p.Epsilon = 0 →
      p.clippedObjective rats advs = PPOObjective DefaultPPOEpsilon rats advs)
    ∧ (p.Epsilon ≠ 0 →
      p.clippedObjective rats advs = PPOObjective p.Epsilon rats advs)
    ∧ DefaultPPOEpsilon = 1 / 5 := by
  refine ⟨fun h => ?_, fun h => ?_, rfl⟩
  · simp [PPO.clippedObjective, h]
  · simp [PPO.clippedObjective, h]

/-- C7 witness: the sample configuration has Epsilon 0 and its clipped
objective coincides with PPOObjective at the 0.2 default. -/
theorem clippedObjective_epsilon_default_witness :
    samplePPOZero.Epsilon = 0
    ∧ samplePPOZero.clippedObjective [1] [1]
      = PPOObjective DefaultPPOEpsilon [1] [1] :=
  ⟨rfl, (clippedObjective_epsilon_default samplePPOZero [1] [1]).1 rfl⟩

/-- C8: with pure (hence deterministic) Base, Actor and Critic
collaborators, pooling the Base output and recomputing Base for the
actor and critic paths give the same result for every continuation, so
the two evaluation strategies of runActorCritic are equivalent and Run
returns the same gradient and terms either way. -/
theorem runActorCritic_poolBase_equiv {σ α : Type} (p : PPO σ) (r : σ)
    (f : σ → σ → α) :
    PPO.runActorCritic { p with PoolBase := true } r f
      = PPO.runActorCritic { p with PoolBase := false } r f := by
  cases p
  rfl

/-- C9: whenever a ratio already lies in the clipping interval from
1-ε to 1+ε, the corresponding PPOObjective component equals the raw
product of ratio and advantage — clipping is a no-op there. -/
theorem PPOObjective_clip_noop (eps : ℚ) (rats advs : List ℚ) (i : Nat)
    (heps : 0 < eps) (hlen : rats.length = advs.length)
    (hi : i < rats.length)
    (hlo : 1 - eps ≤ rats.getD i 0) (hhi : rats.getD i 0 ≤ 1 + eps) :
    (PPOObjective eps rats advs).getD i 0
      = rats.getD i 0 * advs.getD i 0 := by
  unfold PPOObjective clipRange
  rw [getD_zipWith, getD_zipWith, getD_zipWith, getD_map]
  · rw [max_eq_left hlo, min_eq_left hhi, min_self]
  all_goals simp [hlen ▸ hi, hi]

/-- C9 witness: with ε = 1/5 the ratio 21/20 lies inside the clipping
interval and the objective component is the raw product. -/
theorem PPOObjective_clip_noop_witness :
    (PPOObjective (1 / 5) [21 / 20] [2]).getD 0 0 = 21 / 20 * 2 := by
  have h := PPOObjective_clip_noop (1 / 5) [21 / 20] [2] 0 (by norm_num) rfl
    (by norm_num) (by norm_num) (by norm_num)
  simpa using h

/-- C10: the per-step critic term equals minus the effective critic
weight times the squared critic error, where the effective weight is
CriticWeight when nonzero and 1 when the field is 0; the critic
coefficient is never 0, so an effective weight of exactly 0 cannot be
configured. -/
theorem criticTerm_weight_default (w : ℚ) (critic targets : List ℚ) :
    criticTerm w critic targets =
      List.zipWith (fun c t => -(if w = 0 then 1 else w) * (c - t) ^ 2)
        critic targets
    ∧ criticCoeff w ≠ 0 := by
  constructor
  · unfold criticTerm
    induction critic generalizing targets with
    | nil => simp
    | cons c cs ih =>
        cases targets with
        | nil => simp
        | cons t ts =>
            simp only [List.zipWith_cons_cons, List.map_cons, List.cons.injEq]
            refine ⟨?_, ih ts⟩
            by_cases hw : w = 0
            · simp [criticCoeff, hw]
            · simp [criticCoeff, hw]
              ring
  · by_cases hw : w = 0
    · simp [criticCoeff, hw]
    · simp [criticCoeff, hw]

end Anyrl
